import Mathlib

/-!
Verification of the obsidian-finder note-repository server.

The repository ships the protocol dispatcher (`src/obsidian-finder/index.ts`)
together with a specification of the core Note Repository (path resolution,
frontmatter codec, CRUD orchestration, search, structure enumeration) that the
dispatcher calls through `./lib/tools.js`.  The dispatcher is embedded from the
source; the core operations, whose source module is not part of the checkout,
are modelled from the specification and marked as such in their doc comments.

Text is modelled as `List Char` so that splitting and joining on newline and
slash characters is fully explicit; metadata is an ordered association list of
key/value pairs, matching the spec's "generic ordered key/value mapping".
-/

namespace ObsidianFinder

/-- Error taxonomy of the core, from spec section 7. -/
inductive EKind where
  | invalidPath
  | notFound
  | alreadyExists
  | metadataParseError
  | ioFailure
deriving DecidableEq, Repr

/-- Raw text: a sequence of characters. -/
abbrev Raw := List Char

/-- Metadata: ordered mapping from string keys to (scalar) string values. -/
abbrev Metadata := List (Raw × Raw)

/-- Characters of a string literal, for concrete inputs. -/
def str (s : String) : Raw := s.data

/-- Split a character sequence on a separator character; like
`String.splitOn` for a one-character separator, the result is never empty
(`splitCh sep [] = [[]]`). -/
def splitCh (sep : Char) : Raw → List Raw
  | [] => [[]]
  | c :: r =>
    if c = sep then [] :: splitCh sep r
    else
      match splitCh sep r with
      | [] => [[c]]
      | l :: ls => (c :: l) :: ls

/-- Join pieces with a separator character; left inverse of `splitCh`. -/
def joinCh (sep : Char) : List Raw → Raw
  | [] => []
  | [l] => l
  | l :: ls => l ++ sep :: joinCh sep ls

/-- `noCh sep r` holds when `sep` does not occur in `r`. -/
def noCh (sep : Char) : Raw → Bool
  | [] => true
  | c :: r => if c = sep then false else noCh sep r

/-- The frontmatter delimiter line. -/
def DELIM : Raw := ['-', '-', '-']

/-- Does the sequence contain the YAML key/value separator `: `? -/
def hasSep : Raw → Bool
  | [] => false
  | c :: r => (decide (c = ':') && decide (r.head? = some ' ')) || hasSep r

/-- Split a YAML line `key: value` at the first `: ` separator. -/
def splitKV : Raw → Option (Raw × Raw)
  | [] => none
  | c :: r =>
    if c = ':' ∧ r.head? = some ' ' then some ([], r.tail)
    else (splitKV r).map fun kv => (c :: kv.1, kv.2)

/-- Emit one YAML mapping line `key: value`. -/
def serializeLine (k v : Raw) : Raw := k ++ ':' :: ' ' :: v

/-- The emitted YAML block: one `key: value` line per entry, each
newline-terminated, in insertion order (spec 4.2). -/
def yamlBlock : Metadata → Raw
  | [] => []
  | kv :: t => serializeLine kv.1 kv.2 ++ '\n' :: yamlBlock t

/-- Modelled from the spec: `serialize(metadata, body)` of the Frontmatter
Codec (spec 4.2, source module `lib/tools.ts` absent from the checkout).
Emits the delimiter-wrapped YAML block followed by the body only when the
metadata is non-empty; otherwise emits the body alone. -/
def serialize (m : Metadata) (body : Raw) : Raw :=
  match m with
  | [] => body
  | _ :: _ => DELIM ++ '\n' :: (yamlBlock m ++ (DELIM ++ '\n' :: body))

/-- Parse the lines following an opening delimiter: mapping lines up to the
closing delimiter, then the body.  A missing closing delimiter or a line
without the `: ` separator is malformed (spec 4.2: `MetadataParseError`). -/
def parseFM : List Raw → Except EKind (Metadata × Raw)
  | [] => .error .metadataParseError
  | l :: rest =>
    if l = DELIM then .ok ([], joinCh '\n' rest)
    else
      match splitKV l with
      | none => .error .metadataParseError
      | some kv =>
        match parseFM rest with
        | .ok (m, b) => .ok (kv :: m, b)
        | .error e => .error e

/-- Modelled from the spec: `parse(rawText)` of the Frontmatter Codec
(spec 4.2, source module absent).  Recognizes a leading delimiter line; if
absent, metadata is the empty mapping and body is the full text unchanged. -/
def parse (raw : Raw) : Except EKind (Metadata × Raw) :=
  match splitCh '\n' raw with
  | l :: rest => if l = DELIM then parseFM rest else .ok ([], raw)
  | [] => .ok ([], raw)

/-- Association lookup in a metadata mapping. -/
def lookupM : Metadata → Raw → Option Raw
  | [], _ => none
  | kv :: t, k => if kv.1 = k then some kv.2 else lookupM t k

/-- Modelled from the spec: `merge(existing, incoming)` (spec 4.2, source
module absent).  Incoming keys overwrite same-named existing keys; existing
keys absent from incoming are retained; key order stays stable. -/
def merge (ex inc : Metadata) : Metadata :=
  ex.map (fun kv =>
    match lookupM inc kv.1 with
    | some v => (kv.1, v)
    | none => kv)
  ++ inc.filter (fun kv => (lookupM ex kv.1).isNone)

/-- A key round-trips through the YAML line format when it contains no
newline and no `: ` separator. -/
def wfKey (k : Raw) : Bool := noCh '\n' k && !(hasSep k)

/-- A value round-trips when it contains no newline. -/
def wfVal (v : Raw) : Bool := noCh '\n' v

/-- All keys and values of the mapping round-trip. -/
def wfMeta : Metadata → Bool
  | [] => true
  | kv :: t => wfKey kv.1 && wfVal kv.2 && wfMeta t

/-- The first line of a text. -/
def firstLine (r : Raw) : Raw :=
  match splitCh '\n' r with
  | l :: _ => l
  | [] => []

/-- A resolved absolute path, as a list of path segments. -/
abbrev RPath := List Raw

/-- Does the path contain a null byte? -/
def hasNul : Raw → Bool
  | [] => false
  | c :: r => if c = Char.ofNat 0 then true else hasNul r

/-- Normalization stack machine: skip empty and `.` segments, let `..` pop
the deepest segment (clamping at the filesystem root), push anything else.
The first argument is the reversed stack of segments resolved so far. -/
def normGo : List Raw → List Raw → List Raw
  | stk, [] => stk.reverse
  | stk, s :: rest =>
    if s = [] then normGo stk rest
    else if s = ['.'] then normGo stk rest
    else if s = ['.', '.'] then normGo stk.tail rest
    else normGo (s :: stk) rest

/-- The normalized resolution of a caller-supplied path against the vault
root: an absolute path (starting with `/`) replaces the root as the base,
a relative path is resolved below the root; `.`/`..`/empty segments are
normalized away by `normGo`. -/
def resolution (root : RPath) (p : Raw) : RPath :=
  match p with
  | '/' :: _ => normGo [] (splitCh '/' p)
  | _ => normGo root.reverse (splitCh '/' p)

/-- Modelled from the spec: `resolve(relativePath)` of the Path Resolver
(spec 4.1, source module absent).  Rejects empty paths and paths containing
null bytes, and fails with `InvalidPath` whenever the normalized resolution
is not a descendant of the vault root; otherwise returns the normalized
absolute path. -/
def resolve (root : RPath) (p : Raw) : Except EKind RPath :=
  if p = [] then .error .invalidPath
  else if hasNul p then .error .invalidPath
  else if root <+: resolution root p then .ok (resolution root p)
  else .error .invalidPath

/-- The vault state: stored files, keyed by resolved path, in directory
traversal order. -/
abbrev Vault := List (RPath × Raw)

/-- Look up the raw content stored at a resolved path. -/
def vget : Vault → RPath → Option Raw
  | [], _ => none
  | kr :: t, p => if kr.1 = p then some kr.2 else vget t p

/-- Store raw content at a resolved path (replace or append). -/
def vset : Vault → RPath → Raw → Vault
  | [], p, r => [(p, r)]
  | kr :: t, p, r => if kr.1 = p then (p, r) :: t else kr :: vset t p r

/-- Remove the file at a resolved path. -/
def vdel : Vault → RPath → Vault
  | [], _ => []
  | kr :: t, p => if kr.1 = p then vdel t p else kr :: vdel t p

/-- Modelled from the spec: the create operation (spec 4.3, source module
absent).  Fails with `AlreadyExists` if the resolved file exists; otherwise
serializes the metadata and body and stores the result. -/
def createNote (root : RPath) (v : Vault) (p content : Raw) (m : Metadata) :
    Except EKind Vault :=
  match resolve root p with
  | .error e => .error e
  | .ok rp =>
    match vget v rp with
    | some _ => .error .alreadyExists
    | none => .ok (vset v rp (serialize m content))

/-- Modelled from the spec: the edit operation (spec 4.4, source module
absent).  Fails with `NotFound` if the file is absent; parses the existing
file; with `updateMetadata = false` keeps the existing metadata and replaces
only the body; with `updateMetadata = true` re-parses the supplied content
for an embedded frontmatter block and merges it over the existing metadata. -/
def editNote (root : RPath) (v : Vault) (p content : Raw)
    (updateMetadata : Bool) : Except EKind Vault :=
  match resolve root p with
  | .error e => .error e
  | .ok rp =>
    match vget v rp with
    | none => .error .notFound
    | some raw =>
      match parse raw with
      | .error e => .error e
      | .ok (m, _) =>
        if updateMetadata then
          match parse content with
          | .error e => .error e
          | .ok (im, nb) => .ok (vset v rp (serialize (merge m im) nb))
        else .ok (vset v rp (serialize m content))

/-- Modelled from the spec: the move operation (spec 4.6, source module
absent).  Fails with `NotFound` if the source is absent, `AlreadyExists` if
the destination is present; otherwise renames, moving the stored bytes
untouched (no frontmatter parse or rewrite). -/
def moveNote (root : RPath) (v : Vault) (oldP newP : Raw) :
    Except EKind Vault :=
  match resolve root oldP with
  | .error e => .error e
  | .ok ro =>
    match resolve root newP with
    | .error e => .error e
    | .ok rn =>
      match vget v ro with
      | none => .error .notFound
      | some raw =>
        match vget v rn with
        | some _ => .error .alreadyExists
        | none => .ok (vset (vdel v ro) rn raw)

/-- Modelled from the spec: the read-metadata operation (spec 4.7, source
module absent).  Reads and parses the file, returning only the metadata. -/
def getMetadata (root : RPath) (v : Vault) (p : Raw) : Except EKind Metadata :=
  match resolve root p with
  | .error e => .error e
  | .ok rp =>
    match vget v rp with
    | none => .error .notFound
    | some raw =>
      match parse raw with
      | .error e => .error e
      | .ok mb => .ok mb.1

/-- The body of a stored note, observed through the codec. -/
def noteBody (root : RPath) (v : Vault) (p : Raw) : Except EKind Raw :=
  match resolve root p with
  | .error e => .error e
  | .ok rp =>
    match vget v rp with
    | none => .error .notFound
    | some raw =>
      match parse raw with
      | .error e => .error e
      | .ok mb => .ok mb.2

/-- Read the raw stored content of a note. -/
def readNote (root : RPath) (v : Vault) (p : Raw) : Except EKind Raw :=
  match resolve root p with
  | .error e => .error e
  | .ok rp =>
    match vget v rp with
    | none => .error .notFound
    | some raw => .ok raw

/-- Lowercase fold of a text. -/
def lowerR (r : Raw) : Raw := r.map Char.toLower

/-- Substring test: does `q` occur contiguously inside `t`? -/
def containsSub (q : Raw) : Raw → Bool
  | [] => decide (q = [])
  | c :: rest => q.isPrefixOf (c :: rest) || containsSub q rest

/-- One line matches the query, with case folding applied to both sides
when the search is case-insensitive (spec 4.8). -/
def matchLine (q : Raw) (cs : Bool) (line : Raw) : Bool :=
  if cs then containsSub q line else containsSub (lowerR q) (lowerR line)

/-- The text a file is searched over: the body always, the serialized
metadata additionally when `includeFrontmatter` is set (spec 4.8). -/
def searchText (includeFM : Bool) (m : Metadata) (b : Raw) : Raw :=
  if includeFM then serialize m b else b

/-- Line-oriented hits over a list of lines, numbering from `i`. -/
def lineHitsAux (q : Raw) (cs : Bool) : Nat → List Raw → List (Nat × Raw)
  | _, [] => []
  | i, l :: t =>
    if matchLine q cs l then (i, l) :: lineHitsAux q cs (i + 1) t
    else lineHitsAux q cs (i + 1) t

/-- 1-based line hits of a text (spec 4.8). -/
def lineHits (q : Raw) (cs : Bool) (text : Raw) : List (Nat × Raw) :=
  lineHitsAux q cs 1 (splitCh '\n' text)

/-- Modelled from the spec: the search operation (spec 4.8, source module
absent).  Scans the vault in traversal order; a file whose frontmatter fails
to parse is skipped and noted in the second component; every other file
contributes its matching lines, in order. -/
def searchNotes (v : Vault) (q : Raw) (includeFM cs : Bool) :
    List (RPath × Nat × Raw) × List RPath :=
  match v with
  | [] => ([], [])
  | pr :: t =>
    let rest := searchNotes t q includeFM cs
    match parse pr.2 with
    | .error _ => (rest.1, pr.1 :: rest.2)
    | .ok (m, b) =>
      ((lineHits q cs (searchText includeFM m b)).map (fun h => (pr.1, h))
         ++ rest.1,
       rest.2)

/-- Is the file name a markdown file name (`.md` extension)? -/
def isMdName (n : String) : Bool := (str ".md").isSuffixOf n.data

mutual
/-- A filesystem entry under the vault root: plain file, symlink, or
directory with children. -/
inductive FSEntry where
  | file (name : String)
  | symlink (name : String)
  | dir (name : String) (children : FSList)
/-- A list of filesystem entries. -/
inductive FSList where
  | nil
  | cons (e : FSEntry) (t : FSList)
end

mutual
/-- A node of the returned vault-structure tree: markdown file leaf or
directory with children. -/
inductive VaultNode where
  | file (name : String)
  | dir (name : String) (children : NodeList)
/-- A list of tree nodes. -/
inductive NodeList where
  | nil
  | cons (n : VaultNode) (t : NodeList)
end

/-- The name carried by a tree node. -/
def nodeName : VaultNode → String
  | .file n => n
  | .dir n _ => n

/-- Lexicographic comparison of character sequences. -/
def charsLe : List Char → List Char → Bool
  | [], _ => true
  | _ :: _, [] => false
  | a :: as, b :: bs => if a = b then charsLe as bs else decide (a < b)

/-- Name order used to sort directory children. -/
def strLe (a b : String) : Bool := charsLe a.data b.data

/-- Ordered insertion of a node by name. -/
def insertNode (n : VaultNode) : NodeList → NodeList
  | .nil => .cons n .nil
  | .cons m t =>
    if strLe (nodeName n) (nodeName m) then .cons n (.cons m t)
    else .cons m (insertNode n t)

/-- Sort a node list by name (spec 4.10: children sorted by name). -/
def sortNodes : NodeList → NodeList
  | .nil => .nil
  | .cons n t => insertNode n (sortNodes t)

mutual
/-- Modelled from the spec: the tree builder of `get_vault_structure`
(spec 4.10, source module absent).  Markdown files become leaves, symlinks
and non-markdown files are excluded entirely, directories are kept
regardless of contents and recurse into their children, sorted by name. -/
def buildEntry : FSEntry → Option VaultNode
  | .file n => if isMdName n then some (.file n) else none
  | .symlink _ => none
  | .dir n cs => some (.dir n (sortNodes (buildList cs)))
/-- Build the tree nodes of a list of filesystem entries. -/
def buildList : FSList → NodeList
  | .nil => .nil
  | .cons e t =>
    match buildEntry e with
    | some n => .cons n (buildList t)
    | none => buildList t
end

mutual
/-- Does the tree node contain a node at the given relative path? -/
def inNode : VaultNode → List String → Bool
  | .file n, p => p == [n]
  | .dir _ _, [] => false
  | .dir n cs, x :: rest => x == n && (rest.isEmpty || inList cs rest)
/-- Does any node of the list contain a node at the given path? -/
def inList : NodeList → List String → Bool
  | .nil, _ => false
  | .cons nd t, p => inNode nd p || inList t p
end

/-- Path membership through an optional node. -/
def inNodeOpt : Option VaultNode → List String → Bool
  | none, _ => false
  | some n, p => inNode n p

mutual
/-- The claim-side predicate: the path names a markdown file or a directory,
reached through directories only — what spec 4.10 says the tree keeps. -/
def keptEntry : FSEntry → List String → Bool
  | .file n, p => (p == [n]) && isMdName n
  | .symlink _, _ => false
  | .dir _ _, [] => false
  | .dir n cs, x :: rest => x == n && (rest.isEmpty || keptList cs rest)
/-- Kept paths of a list of filesystem entries. -/
def keptList : FSList → List String → Bool
  | .nil, _ => false
  | .cons e t, p => keptEntry e p || keptList t p
end

/-- Startup configuration check, embedded from `index.ts` lines 13-16: the
`OBSIDIAN_VAULT_PATH` environment variable is read and the process throws
before serving anything when it is missing (or empty, by JS truthiness). -/
def startup (env : Option String) : Except String String :=
  match env with
  | none => .error "OBSIDIAN_VAULT_PATH environment variable is required"
  | some v =>
    if v = "" then .error "OBSIDIAN_VAULT_PATH environment variable is required"
    else .ok v

/-- Protocol error codes used by the dispatcher. -/
inductive ErrorCode where
  | invalidRequest
  | methodNotFound
deriving DecidableEq, Repr

/-- An error propagating out of a tool invocation: a core domain error
(`ObsidianError`), an already-protocol-level `McpError`, or any other
unexpected error value. -/
inductive Thrown (α : Type) where
  | obsidianError (msg : String)
  | mcpError (code : ErrorCode) (msg : String)
  | other (e : α)

/-- The catch clause of the tool dispatcher, embedded from `index.ts` lines
325-330: an `ObsidianError` is converted to an invalid-request `McpError`
carrying the same message; everything else is re-thrown unmodified. -/
def handleCaught {α : Type} : Thrown α → Thrown α
  | .obsidianError msg => .mcpError .invalidRequest msg
  | e => e

/-- A tool invocation as seen at the dispatcher boundary: the core's result,
with the catch clause applied to any raised error. -/
def dispatchTool {α : Type} (result : Except (Thrown α) String) :
    Except (Thrown α) String :=
  match result with
  | .ok s => .ok s
  | .error e => .error (handleCaught e)

/-! ## Lemmas about splitting and joining -/

theorem splitCh_ne_nil (sep : Char) (r : Raw) : splitCh sep r ≠ [] := by
  induction r with
  | nil => simp [splitCh]
  | cons c r ih =>
    by_cases h : c = sep
    · simp [splitCh, h]
    · simp only [splitCh, if_neg h]
      cases hs : splitCh sep r with
      | nil => exact absurd hs ih
      | cons l ls => simp

theorem joinCh_splitCh (sep : Char) (r : Raw) : joinCh sep (splitCh sep r) = r := by
  induction r with
  | nil => rfl
  | cons c r ih =>
    by_cases h : c = sep
    · subst h
      simp only [splitCh, if_pos rfl]
      cases hs : splitCh c r with
      | nil => exact absurd hs (splitCh_ne_nil c r)
      | cons l ls =>
        rw [hs] at ih
        simp only [joinCh, List.nil_append]
        rw [ih]
    · simp only [splitCh, if_neg h]
      cases hs : splitCh sep r with
      | nil => exact absurd hs (splitCh_ne_nil sep r)
      | cons l ls =>
        rw [hs] at ih
        cases ls with
        | nil =>
          simp only [joinCh] at ih ⊢
          rw [ih]
        | cons m ms =>
          simp only [joinCh, List.cons_append] at ih ⊢
          rw [ih]

theorem splitCh_append (sep : Char) (a b : Raw) (h : noCh sep a = true) :
    splitCh sep (a ++ sep :: b) = a :: splitCh sep b := by
  induction a with
  | nil => simp [splitCh]
  | cons c a ih =>
    rw [noCh] at h
    by_cases hc : c = sep
    · rw [if_pos hc] at h; exact absurd h (by simp)
    · rw [if_neg hc] at h
      simp only [List.cons_append, splitCh, if_neg hc, List.append_eq, ih h]

theorem noCh_append (sep : Char) (a b : Raw) :
    noCh sep (a ++ b) = (noCh sep a && noCh sep b) := by
  induction a with
  | nil => simp [noCh]
  | cons c a ih => by_cases hc : c = sep <;> simp [noCh, hc, ih]

/-! ## Lemmas about the frontmatter codec -/

theorem serializeLine_ne_delim (k v : Raw) : serializeLine k v ≠ DELIM := by
  intro h
  have hm : ':' ∈ serializeLine k v := by simp [serializeLine]
  rw [h] at hm
  simp [DELIM] at hm

theorem noCh_serializeLine (k v : Raw) (hk : noCh '\n' k = true)
    (hv : noCh '\n' v = true) : noCh '\n' (serializeLine k v) = true := by
  have h2 : noCh '\n' (':' :: ' ' :: v) = noCh '\n' v := rfl
  rw [serializeLine, noCh_append, h2, hk, hv]
  rfl

theorem splitKV_serializeLine (k v : Raw) (h : hasSep k = false) :
    splitKV (serializeLine k v) = some (k, v) := by
  induction k with
  | nil =>
    show splitKV (':' :: ' ' :: v) = some ([], v)
    rw [splitKV, if_pos ⟨rfl, rfl⟩]
    rfl
  | cons c k ih =>
    have h1 : (decide (c = ':') && decide (k.head? = some ' ')) = false := by
      cases hx : (decide (c = ':') && decide (k.head? = some ' ')) with
      | false => rfl
      | true => rw [hasSep, hx] at h; simp at h
    have h2 : hasSep k = false := by
      cases hx : hasSep k with
      | false => rfl
      | true => rw [hasSep, hx] at h; simp at h
    have key : splitKV (c :: (k ++ ':' :: ' ' :: v)) =
        ((splitKV (k ++ ':' :: ' ' :: v)).map fun kv => (c :: kv.1, kv.2)) := by
      rw [splitKV, if_neg]
      intro hand
      cases k with
      | nil =>
        have := hand.2
        simp at this
      | cons x kt =>
        have hx : x = ' ' := by
          have h5 := hand.2
          simp at h5
          exact h5
        rw [hand.1] at h1
        rw [hx] at h1
        simp at h1
    have ih2 := ih h2
    rw [serializeLine] at ih2 ⊢
    simp only [List.cons_append]
    rw [key, ih2]
    rfl

theorem splitCh_yamlBlock (m : Metadata) (b : Raw) (h : wfMeta m = true) :
    splitCh '\n' (yamlBlock m ++ (DELIM ++ '\n' :: b)) =
      (m.map fun kv => serializeLine kv.1 kv.2) ++ DELIM :: splitCh '\n' b := by
  induction m with
  | nil =>
    have := splitCh_append '\n' DELIM b (by decide)
    simpa [yamlBlock] using this
  | cons kv t ih =>
    rw [wfMeta] at h
    simp only [Bool.and_eq_true] at h
    obtain ⟨⟨hwk, hwv⟩, h3⟩ := h
    simp only [wfKey, Bool.and_eq_true] at hwk
    have hk : noCh '\n' kv.1 = true := hwk.1
    have hv : noCh '\n' kv.2 = true := hwv
    rw [yamlBlock]
    have hassoc : (serializeLine kv.1 kv.2 ++ '\n' :: yamlBlock t) ++ (DELIM ++ '\n' :: b)
        = serializeLine kv.1 kv.2 ++ '\n' :: (yamlBlock t ++ (DELIM ++ '\n' :: b)) := by
      simp [List.append_assoc]
    rw [hassoc, splitCh_append '\n' _ _ (noCh_serializeLine _ _ hk hv), ih h3]
    simp

theorem parseFM_roundtrip (m : Metadata) (rest : List Raw) (h : wfMeta m = true) :
    parseFM ((m.map fun kv => serializeLine kv.1 kv.2) ++ DELIM :: rest) =
      .ok (m, joinCh '\n' rest) := by
  induction m with
  | nil => simp [parseFM]
  | cons kv t ih =>
    rw [wfMeta] at h
    simp only [Bool.and_eq_true] at h
    obtain ⟨⟨hwk, _⟩, h3⟩ := h
    simp only [wfKey, Bool.and_eq_true] at hwk
    have hsep : hasSep kv.1 = false := by
      have := hwk.2
      simp only [Bool.not_eq_true'] at this
      exact this
    have e1 : splitKV (serializeLine kv.1 kv.2) = some (kv.1, kv.2) :=
      splitKV_serializeLine _ _ hsep
    have e2 := ih h3
    simp only [List.map_cons, List.cons_append, parseFM,
      if_neg (serializeLine_ne_delim kv.1 kv.2), e1, List.append_eq, e2]

theorem parse_eq_of_splitCh (raw l : Raw) (rest : List Raw)
    (h : splitCh '\n' raw = l :: rest) :
    parse raw = if l = DELIM then parseFM rest else .ok ([], raw) := by
  simp only [parse]
  rw [h]

theorem parse_serialize_aux (m : Metadata) (b : Raw) (hm : wfMeta m = true)
    (hb : m = [] → firstLine b ≠ DELIM) :
    parse (serialize m b) = .ok (m, b) := by
  cases m with
  | nil =>
    have hfl := hb rfl
    show parse b = .ok ([], b)
    cases hs : splitCh '\n' b with
    | nil => exact absurd hs (splitCh_ne_nil '\n' b)
    | cons l rest =>
      have hl : l ≠ DELIM := by
        intro h
        apply hfl
        rw [firstLine, hs, h]
      rw [parse_eq_of_splitCh b l rest hs, if_neg hl]
  | cons kv t =>
    have hsp : splitCh '\n' (serialize (kv :: t) b)
        = DELIM :: (((kv :: t).map fun kv => serializeLine kv.1 kv.2)
            ++ DELIM :: splitCh '\n' b) := by
      rw [serialize, splitCh_append '\n' DELIM _ (by decide),
        splitCh_yamlBlock _ _ hm]
    rw [parse_eq_of_splitCh _ _ _ hsp, if_pos rfl, parseFM_roundtrip _ _ hm,
      joinCh_splitCh]

/-! ## Claim C2: frontmatter round-trip -/

/-- C2 (amended): parsing the result of serializing `(M, B)` returns exactly
`(M, B)` for every well-formed metadata mapping `M` (keys without newline or
`: `, values without newline) and every body `B` whose first line is not the
delimiter when `M` is empty; and when `M` is empty, `serialize` emits `B`
alone with no frontmatter block. -/
theorem frontmatter_roundtrip (m : Metadata) (b : Raw) (hm : wfMeta m = true)
    (hb : m = [] → firstLine b ≠ DELIM) :
    parse (serialize m b) = .ok (m, b) ∧ serialize ([] : Metadata) b = b :=
  ⟨parse_serialize_aux m b hm hb, rfl⟩

/-- Witness for C2: the round-trip evaluated at a concrete mapping and body. -/
theorem frontmatter_roundtrip_witness :
    parse (serialize [(str "tag", str "x")] (str "hello"))
      = .ok ([(str "tag", str "x")], str "hello") :=
  (frontmatter_roundtrip [(str "tag", str "x")] (str "hello")
    (by decide) (by decide)).1

/-- Counterexample to C2 as stated: with empty metadata and a body that
itself begins with the delimiter line, serialization emits the body alone,
and parsing it finds a frontmatter block, returning a non-empty mapping and
a different body. -/
theorem frontmatter_roundtrip_counterexample :
    serialize ([] : Metadata) (str "---\na: b\n---\nx") = str "---\na: b\n---\nx" ∧
    parse (str "---\na: b\n---\nx") = .ok ([(str "a", str "b")], str "x") ∧
    ([(str "a", str "b")], str "x") ≠ (([] : Metadata), str "---\na: b\n---\nx") :=
  ⟨rfl, rfl, by decide⟩

/-! ## Claim C1: path containment -/

/-- C1: for every non-empty, null-free caller-supplied path `P`, when the
normalized resolution of `P` against the vault root stays within the root,
`resolve` succeeds and returns an absolute path prefixed by the root; when
it would exit the root (including `..` traversal and absolute-path
injection), `resolve` fails with `InvalidPath`. -/
theorem resolve_containment (root : RPath) (p : Raw) (h1 : p ≠ [])
    (h2 : hasNul p = false) :
    (root <+: resolution root p →
      ∃ rest, resolve root p = .ok (root ++ rest)) ∧
    (¬ root <+: resolution root p →
      resolve root p = .error .invalidPath) := by
  constructor
  · intro h
    obtain ⟨t, ht⟩ := h
    refine ⟨t, ?_⟩
    simp only [resolve, if_neg h1]
    rw [if_neg (by simp [h2]), if_pos ⟨t, ht⟩, ht]
  · intro h
    simp only [resolve, if_neg h1]
    rw [if_neg (by simp [h2]), if_neg h]

/-- Witness for C1: a contained path with a normalized-away `..` segment
resolves to an absolute path below the vault root. -/
theorem resolve_containment_witness :
    ∃ rest, resolve [str "vault"] (str "notes/../x.md")
      = .ok ([str "vault"] ++ rest) :=
  (resolve_containment [str "vault"] (str "notes/../x.md")
    (by decide) (by decide)).1 (by decide)

/-! ## Lemmas about the vault state -/

theorem vget_vset_self (v : Vault) (p : RPath) (r : Raw) :
    vget (vset v p r) p = some r := by
  induction v with
  | nil => simp [vget, vset]
  | cons kr t ih =>
    obtain ⟨k, r0⟩ := kr
    by_cases h : k = p
    · simp [vset, h, vget]
    · simp [vset, h, vget, ih]

theorem vget_vset_ne (v : Vault) (p q : RPath) (r : Raw) (h : p ≠ q) :
    vget (vset v p r) q = vget v q := by
  induction v with
  | nil => simp [vget, vset, h]
  | cons kr t ih =>
    obtain ⟨k, r0⟩ := kr
    by_cases hk : k = p
    · subst hk
      simp [vset, vget, h]
    · simp [vset, hk, vget, ih]

theorem vget_vdel_self (v : Vault) (p : RPath) : vget (vdel v p) p = none := by
  induction v with
  | nil => rfl
  | cons kr t ih =>
    obtain ⟨k, r0⟩ := kr
    by_cases h : k = p
    · simp [vdel, h, ih]
    · simp [vdel, h, vget, ih]

/-! ## Claim C8: create never overwrites -/

/-- C8: creating a note whose resolved path already holds a file fails with
`AlreadyExists`; no vault state is produced, so the existing content is
untouched. -/
theorem createNote_no_overwrite (root : RPath) (v : Vault) (p content : Raw)
    (m : Metadata) (rp : RPath) (raw : Raw)
    (hr : resolve root p = .ok rp) (hv : vget v rp = some raw) :
    createNote root v p content m = .error .alreadyExists := by
  simp only [createNote, hr, hv]

/-- Witness for C8 at a concrete vault. -/
theorem createNote_no_overwrite_witness :
    createNote [str "r"] [([str "r", str "a.md"], str "hi")] (str "a.md")
      (str "new") [] = .error .alreadyExists :=
  createNote_no_overwrite [str "r"] [([str "r", str "a.md"], str "hi")]
    (str "a.md") (str "new") [] [str "r", str "a.md"] (str "hi") rfl rfl

/-! ## Claim C3: edit with updateMetadata=false preserves metadata -/

/-- C3 (amended): editing an existing note with `updateMetadata = false` and
a new body leaves `get_metadata` unchanged and makes the body exactly the
new body, provided the existing metadata round-trips (keys without newline
or `: `, values without newline) and, when the existing metadata is empty,
the new body's first line is not the `---` delimiter. -/
theorem editNote_preserves_metadata (root : RPath) (v : Vault) (p : Raw)
    (rp : RPath) (raw : Raw) (m : Metadata) (b newBody : Raw)
    (hr : resolve root p = .ok rp) (hv : vget v rp = some raw)
    (hp : parse raw = .ok (m, b)) (hm : wfMeta m = true)
    (hb : m = [] → firstLine newBody ≠ DELIM) :
    editNote root v p newBody false = .ok (vset v rp (serialize m newBody)) ∧
    getMetadata root (vset v rp (serialize m newBody)) p = .ok m ∧
    noteBody root (vset v rp (serialize m newBody)) p = .ok newBody := by
  have hps := parse_serialize_aux m newBody hm hb
  refine ⟨?_, ?_, ?_⟩
  · simp [editNote, hr, hv, hp]
  · simp only [getMetadata, hr, vget_vset_self, hps]
  · simp only [noteBody, hr, vget_vset_self, hps]

/-- Witness for C3: the spec's own test, editing a note carrying metadata
`tag: x` with new body `world`. -/
theorem editNote_preserves_metadata_witness :
    editNote [str "r"] [([str "r", str "n.md"], str "---\ntag: x\n---\nold")]
        (str "n.md") (str "world") false
      = .ok (vset [([str "r", str "n.md"], str "---\ntag: x\n---\nold")]
          [str "r", str "n.md"] (serialize [(str "tag", str "x")] (str "world"))) ∧
    getMetadata [str "r"]
        (vset [([str "r", str "n.md"], str "---\ntag: x\n---\nold")]
          [str "r", str "n.md"] (serialize [(str "tag", str "x")] (str "world")))
        (str "n.md") = .ok [(str "tag", str "x")] ∧
    noteBody [str "r"]
        (vset [([str "r", str "n.md"], str "---\ntag: x\n---\nold")]
          [str "r", str "n.md"] (serialize [(str "tag", str "x")] (str "world")))
        (str "n.md") = .ok (str "world") :=
  editNote_preserves_metadata [str "r"]
    [([str "r", str "n.md"], str "---\ntag: x\n---\nold")] (str "n.md")
    [str "r", str "n.md"] (str "---\ntag: x\n---\nold")
    [(str "tag", str "x")] (str "old") (str "world")
    rfl rfl rfl (by decide) (by decide)

/-- Counterexample to C3 as stated: a note with empty metadata edited with
`updateMetadata = false` and a new body that begins with a `---` line; the
stored file becomes the new body alone, and `get_metadata` afterwards
returns a non-empty mapping, so the metadata did not stay unchanged. -/
theorem editNote_counterexample :
    getMetadata [str "r"] [([str "r", str "n.md"], str "x")] (str "n.md")
      = .ok [] ∧
    editNote [str "r"] [([str "r", str "n.md"], str "x")] (str "n.md")
        (str "---\na: b\n---\ny") false
      = .ok [([str "r", str "n.md"], str "---\na: b\n---\ny")] ∧
    getMetadata [str "r"] [([str "r", str "n.md"], str "---\na: b\n---\ny")]
        (str "n.md") = .ok [(str "a", str "b")] ∧
    [(str "a", str "b")] ≠ ([] : Metadata) :=
  ⟨rfl, rfl, rfl, by decide⟩

/-! ## Claim C4: move preserves raw content -/

/-- C4: moving an existing note to a fresh destination succeeds, the
destination then holds the byte-identical raw content (no frontmatter parse
or rewrite happens on the way), and any read of the old path — raw read or
metadata read — fails with `NotFound`. -/
theorem moveNote_preserves (root : RPath) (v : Vault) (oldP newP : Raw)
    (ro rn : RPath) (raw : Raw)
    (ho : resolve root oldP = .ok ro) (hn : resolve root newP = .ok rn)
    (hs : vget v ro = some raw) (hd : vget v rn = none) :
    moveNote root v oldP newP = .ok (vset (vdel v ro) rn raw) ∧
    readNote root (vset (vdel v ro) rn raw) newP = .ok raw ∧
    readNote root (vset (vdel v ro) rn raw) oldP = .error .notFound ∧
    getMetadata root (vset (vdel v ro) rn raw) oldP = .error .notFound := by
  have hne : rn ≠ ro := by
    intro h
    rw [h, hs] at hd
    cases hd
  have hold : vget (vset (vdel v ro) rn raw) ro = none := by
    rw [vget_vset_ne _ _ _ _ hne, vget_vdel_self]
  refine ⟨?_, ?_, ?_, ?_⟩
  · simp only [moveNote, ho, hn, hs, hd]
  · simp only [readNote, hn, vget_vset_self]
  · simp only [readNote, ho, hold]
  · simp only [getMetadata, ho, hold]

/-- Witness for C4: moving `a.md` to `c/d.md` in a one-note vault. -/
theorem moveNote_preserves_witness :
    moveNote [str "r"] [([str "r", str "a.md"], str "---\nk: v\n---\nbody")]
        (str "a.md") (str "c/d.md")
      = .ok (vset (vdel [([str "r", str "a.md"], str "---\nk: v\n---\nbody")]
          [str "r", str "a.md"]) [str "r", str "c", str "d.md"]
          (str "---\nk: v\n---\nbody")) ∧
    readNote [str "r"]
        (vset (vdel [([str "r", str "a.md"], str "---\nk: v\n---\nbody")]
          [str "r", str "a.md"]) [str "r", str "c", str "d.md"]
          (str "---\nk: v\n---\nbody")) (str "c/d.md")
      = .ok (str "---\nk: v\n---\nbody") ∧
    readNote [str "r"]
        (vset (vdel [([str "r", str "a.md"], str "---\nk: v\n---\nbody")]
          [str "r", str "a.md"]) [str "r", str "c", str "d.md"]
          (str "---\nk: v\n---\nbody")) (str "a.md")
      = .error .notFound ∧
    getMetadata [str "r"]
        (vset (vdel [([str "r", str "a.md"], str "---\nk: v\n---\nbody")]
          [str "r", str "a.md"]) [str "r", str "c", str "d.md"]
          (str "---\nk: v\n---\nbody")) (str "a.md")
      = .error .notFound :=
  moveNote_preserves [str "r"] [([str "r", str "a.md"], str "---\nk: v\n---\nbody")]
    (str "a.md") (str "c/d.md") [str "r", str "a.md"]
    [str "r", str "c", str "d.md"] (str "---\nk: v\n---\nbody") rfl rfl rfl rfl

/-! ## Lemmas about search -/

theorem lineHitsAux_mem (q : Raw) (cs : Bool) (ls : List Raw) :
    ∀ (st i : Nat) (line : Raw), ls.get? i = some line →
      matchLine q cs line = true → (st + i, line) ∈ lineHitsAux q cs st ls := by
  induction ls with
  | nil =>
    intro st i line h _
    simp at h
  | cons l t ih =>
    intro st i line hg hm
    cases i with
    | zero =>
      simp at hg
      subst hg
      rw [lineHitsAux, if_pos hm]
      simp
    | succ i =>
      have hg2 : t.get? i = some line := by simpa using hg
      have hmem := ih (st + 1) i line hg2 hm
      have harr : st + (i + 1) = st + 1 + i := by omega
      rw [lineHitsAux]
      by_cases hml : matchLine q cs l = true
      · rw [if_pos hml]
        exact List.mem_cons_of_mem _ (harr ▸ hmem)
      · rw [if_neg hml]
        exact harr ▸ hmem

theorem lineHitsAux_matched (q : Raw) (cs : Bool) (ls : List Raw) :
    ∀ (st n : Nat) (line : Raw), (n, line) ∈ lineHitsAux q cs st ls →
      matchLine q cs line = true := by
  induction ls with
  | nil =>
    intro st n line h
    simp [lineHitsAux] at h
  | cons l t ih =>
    intro st n line h
    rw [lineHitsAux] at h
    by_cases hml : matchLine q cs l = true
    · rw [if_pos hml] at h
      rcases List.mem_cons.mp h with h1 | h2
      · injection h1 with h1a h1b
        subst h1b
        exact hml
      · exact ih _ _ _ h2
    · rw [if_neg hml] at h
      exact ih _ _ _ h

theorem searchNotes_complete (v : Vault) (q : Raw) (incFM : Bool)
    (p : RPath) (raw : Raw) (m : Metadata) (b : Raw) (i : Nat) (line : Raw)
    (hmem : (p, raw) ∈ v) (hp : parse raw = .ok (m, b))
    (hline : (splitCh '\n' (searchText incFM m b)).get? i = some line)
    (hmatch : containsSub (lowerR q) (lowerR line) = true) :
    (p, (i + 1, line)) ∈ (searchNotes v q incFM false).1 := by
  induction v with
  | nil => cases hmem
  | cons pr t ih =>
    obtain ⟨p0, r0⟩ := pr
    rcases List.mem_cons.mp hmem with h1 | h2
    · injection h1 with h1a h1b
      subst h1a
      subst h1b
      simp only [searchNotes, hp]
      apply List.mem_append_left
      apply List.mem_map_of_mem
      have hml : matchLine q false line = true := by
        simpa [matchLine] using hmatch
      have := lineHitsAux_mem q false _ 1 i line hline hml
      simpa [lineHits, Nat.add_comm] using this
    · cases hpr : parse r0 with
      | error e =>
        simp only [searchNotes, hpr]
        exact ih h2
      | ok mb =>
        obtain ⟨mm, bb⟩ := mb
        simp only [searchNotes, hpr]
        exact List.mem_append_right _ (ih h2)

theorem searchNotes_sound (v : Vault) (q : Raw) (incFM : Bool)
    (p : RPath) (n : Nat) (line : Raw)
    (hmem : (p, (n, line)) ∈ (searchNotes v q incFM true).1) :
    containsSub q line = true := by
  induction v with
  | nil => simp [searchNotes] at hmem
  | cons pr t ih =>
    obtain ⟨p0, r0⟩ := pr
    cases hpr : parse r0 with
    | error e =>
      simp only [searchNotes, hpr] at hmem
      exact ih hmem
    | ok mb =>
      obtain ⟨mm, bb⟩ := mb
      simp only [searchNotes, hpr] at hmem
      rcases List.mem_append.mp hmem with h1 | h2
      · rcases List.mem_map.mp h1 with ⟨h, hh, heq⟩
        injection heq with e1 e2
        rw [e2] at hh
        have := lineHitsAux_matched q true _ 1 n line hh
        simpa [matchLine] using this
      · exact ih h2

/-! ## Claim C5: case folding in search -/

/-- C5: with `caseSensitive = false` the search case-folds both the query
and the candidate line, so any scanned note whose line contains the query in
any letter case contributes that line as a hit; with `caseSensitive = true`
every returned hit's line contains the query with exact case. -/
theorem search_case_folding (v : Vault) (q : Raw) (incFM : Bool) :
    (∀ p raw m b i line, (p, raw) ∈ v → parse raw = .ok (m, b) →
      (splitCh '\n' (searchText incFM m b)).get? i = some line →
      containsSub (lowerR q) (lowerR line) = true →
      (p, (i + 1, line)) ∈ (searchNotes v q incFM false).1) ∧
    (∀ p n line, (p, (n, line)) ∈ (searchNotes v q incFM true).1 →
      containsSub q line = true) :=
  ⟨fun p raw m b i line h1 h2 h3 h4 =>
      searchNotes_complete v q incFM p raw m b i line h1 h2 h3 h4,
    fun p n line h => searchNotes_sound v q incFM p n line h⟩

/-- Witness for C5: the spec's own test vault, one note `Hello World` and
one note `hello world`, searched for `hello`: case-insensitive search
matches the mixed-case note, and the case-sensitive hit on the lower-case
note indeed contains the query exactly. -/
theorem search_case_folding_witness :
    ([str "r", str "a.md"], (1, str "Hello World")) ∈
      (searchNotes [([str "r", str "a.md"], str "Hello World"),
        ([str "r", str "b.md"], str "hello world")] (str "hello") false false).1 ∧
    containsSub (str "hello") (str "hello world") = true :=
  ⟨(search_case_folding [([str "r", str "a.md"], str "Hello World"),
        ([str "r", str "b.md"], str "hello world")] (str "hello") false).1
      [str "r", str "a.md"] (str "Hello World") [] (str "Hello World") 0
      (str "Hello World") (by decide) rfl rfl (by decide),
    (search_case_folding [([str "r", str "a.md"], str "Hello World"),
        ([str "r", str "b.md"], str "hello world")] (str "hello") false).2
      [str "r", str "b.md"] 1 (str "hello world") (by decide)⟩

/-! ## Claim C6: parse failures are skipped, not fatal -/

/-- C6: a scanned file whose frontmatter fails to parse is skipped and
recorded among the noted failures, and the search still returns exactly the
matches of every other scanned file, in order. -/
theorem search_skips_bad_file (v1 v2 : Vault) (pb : RPath) (rb : Raw)
    (e : EKind) (q : Raw) (incFM cs : Bool) (hbad : parse rb = .error e) :
    (searchNotes (v1 ++ (pb, rb) :: v2) q incFM cs).1
      = (searchNotes v1 q incFM cs).1 ++ (searchNotes v2 q incFM cs).1 ∧
    pb ∈ (searchNotes (v1 ++ (pb, rb) :: v2) q incFM cs).2 := by
  induction v1 with
  | nil =>
    constructor
    · simp [searchNotes, hbad]
    · simp [searchNotes, hbad]
  | cons pr t ih =>
    obtain ⟨p0, r0⟩ := pr
    obtain ⟨ih1, ih2⟩ := ih
    constructor
    · cases hpr : parse r0 with
      | error e2 =>
        simp only [List.cons_append, searchNotes, hpr, List.append_eq]
        exact ih1
      | ok mb =>
        obtain ⟨mm, bb⟩ := mb
        simp only [List.cons_append, searchNotes, hpr, List.append_eq]
        rw [ih1, List.append_assoc]
    · cases hpr : parse r0 with
      | error e2 =>
        simp only [List.cons_append, searchNotes, hpr, List.append_eq]
        exact List.mem_cons_of_mem _ ih2
      | ok mb =>
        obtain ⟨mm, bb⟩ := mb
        simp only [List.cons_append, searchNotes, hpr, List.append_eq]
        exact ih2

/-- Witness for C6: a malformed file between two good ones is noted and the
good files' matches survive. -/
theorem search_skips_bad_file_witness :
    (searchNotes ([([str "a"], str "hello")] ++ ([str "bad"], str "---\nno\n---\nz")
        :: [([str "c"], str "hello")]) (str "hello") false false).1
      = (searchNotes [([str "a"], str "hello")] (str "hello") false false).1
        ++ (searchNotes [([str "c"], str "hello")] (str "hello") false false).1 ∧
    [str "bad"] ∈ (searchNotes ([([str "a"], str "hello")]
        ++ ([str "bad"], str "---\nno\n---\nz") :: [([str "c"], str "hello")])
        (str "hello") false false).2 :=
  search_skips_bad_file [([str "a"], str "hello")] [([str "c"], str "hello")]
    [str "bad"] (str "---\nno\n---\nz") .metadataParseError (str "hello")
    false false rfl

/-! ## Lemmas about the structure tree -/

theorem inList_insertNode (n : VaultNode) (p : List String) :
    ∀ (t : NodeList), inList (insertNode n t) p = (inNode n p || inList t p)
  | .nil => rfl
  | .cons m t2 => by
    rw [insertNode]
    by_cases h : strLe (nodeName n) (nodeName m) = true
    · rw [if_pos h]
      rfl
    · rw [if_neg h]
      simp only [inList, inList_insertNode n p t2]
      rw [Bool.or_left_comm]

theorem inList_sortNodes (p : List String) :
    ∀ (t : NodeList), inList (sortNodes t) p = inList t p
  | .nil => rfl
  | .cons n t2 => by
    rw [sortNodes, inList_insertNode, inList_sortNodes p t2]
    rfl

mutual
theorem buildEntry_kept : ∀ (e : FSEntry) (p : List String),
    inNodeOpt (buildEntry e) p = keptEntry e p
  | .file n, p => by
    cases h : isMdName n with
    | true => simp [buildEntry, h, inNodeOpt, inNode, keptEntry]
    | false => simp [buildEntry, h, inNodeOpt, keptEntry]
  | .symlink n, p => rfl
  | .dir n cs, p => by
    cases p with
    | nil => simp [buildEntry, inNodeOpt, inNode, keptEntry]
    | cons x rest =>
      have hk := buildList_kept cs rest
      simp only [buildEntry, inNodeOpt, inNode, keptEntry, inList_sortNodes, hk]
theorem buildList_kept : ∀ (l : FSList) (p : List String),
    inList (buildList l) p = keptList l p
  | .nil, p => rfl
  | .cons e t, p => by
    have he := buildEntry_kept e p
    have ht := buildList_kept t p
    cases hb : buildEntry e with
    | none =>
      rw [hb] at he
      simp only [buildList, hb, keptList, ← he, inNodeOpt]
      simpa using ht
    | some nd =>
      rw [hb] at he
      simp only [buildList, hb, keptList, inList, ← he, inNodeOpt, ht]
end

/-! ## Claim C7: structure tree membership -/

/-- C7: the tree built by `get_vault_structure` has a node at exactly those
relative paths that name, through directories only, a markdown file or a
directory of the scanned filesystem: every markdown file and every directory
(empty or not) is present, and no non-markdown file or symlink contributes a
node. -/
theorem vault_structure_paths (l : FSList) (p : List String) :
    inList (buildList l) p = keptList l p :=
  buildList_kept l p

/-! ## Claim C9: startup requires the vault path -/

/-- C9: when the `OBSIDIAN_VAULT_PATH` setting is absent, startup throws the
documented error and never yields a running configuration. -/
theorem startup_requires_vault_path :
    startup none = .error "OBSIDIAN_VAULT_PATH environment variable is required" ∧
    ∀ c, startup none ≠ .ok c := by
  constructor
  · rfl
  · intro c h
    simp [startup] at h

/-! ## Claim C10: dispatcher error mapping -/

/-- C10: when a tool invocation raises the core's domain error
(`ObsidianError`), the dispatcher converts it into a protocol invalid-request
error carrying the same message verbatim; every other raised error is
re-thrown unmodified. -/
theorem dispatch_error_mapping (α : Type) (msg : String) (e : Thrown α) :
    dispatchTool (.error (.obsidianError msg) : Except (Thrown α) String)
      = .error (.mcpError .invalidRequest msg) ∧
    ((∀ m, e ≠ .obsidianError m) →
      dispatchTool (.error e : Except (Thrown α) String) = .error e) := by
  constructor
  · rfl
  · intro h
    cases e with
    | obsidianError m => exact absurd rfl (h m)
    | mcpError _ _ => rfl
    | other _ => rfl

/-- Witness for C10: a non-domain error value passes through unmodified. -/
theorem dispatch_error_mapping_witness :
    dispatchTool (.error (.other (0 : Nat)) : Except (Thrown Nat) String)
      = .error (.other (0 : Nat)) :=
  (dispatch_error_mapping Nat "" (.other 0)).2 (fun _ h => Thrown.noConfusion h)

end ObsidianFinder
